import Mathlib

/-!
Shallow embedding of the XELIS mining coordination engine:
the difficulty engine (`src/xelis_common/src/difficulty.rs`) and the miner's
thread/connection logic (`src/xelis_miner/src/main.rs`).

Machine integers are modelled as `Nat`/`Int` with explicit reduction
modulo `2^w` exactly where the Rust code can overflow; fallible Rust code
(`Result`) is modelled with `Except`.  The protocol constants
`MINIMUM_DIFFICULTY` and `BLOCK_TIME_MILLIS` live in `config.rs`, which is
not part of the sources at hand, so they appear as parameters (`MIN`, `T`)
of the embedded functions.  The floating-point expression
`(E.powf((1 - solve_time/BLOCK_TIME) / M) * 10000) as i64` of
`calculate_difficulty` is the one sub-expression that cannot be shallowly
embedded (its value depends on the platform's `powf`); it is abstracted as
a function parameter `ep : ℕ → ℤ` of the clamped solve time, and the
theorems below quantify over it, assuming only properties the spec itself
states (non-negativity, antitonicity, the range `[8824, 11331]`).
-/

/-- A 256-bit digest: 32 bytes, big-endian (mirrors `Hash([u8; 32])`). -/
structure Hash where
  bytes : List ℕ
deriving DecidableEq

/-- `src/xelis_common/src/difficulty.rs`: the `DifficultyError` enum. -/
inductive DifficultyError where
  | DifficultyCannotBeZero
  | ErrorOnConversionBigUint
deriving DecidableEq

/-- `ToBigUint::to_biguint(&u64)`: converting a `u64` into a `BigUint`
always succeeds; the `None` arm of the `match` in `difficulty_to_big` is
dead code, kept here to mirror the source. -/
def toBigUint (n : ℕ) : Option ℕ := some n

/-- `difficulty_to_big` (a.k.a. `difficulty_to_target`): rejects a zero
difficulty, otherwise returns `(1 << 256) / difficulty`. -/
def difficulty_to_big (difficulty : ℕ) : Except DifficultyError ℕ :=
  if difficulty = 0 then
    .error .DifficultyCannotBeZero
  else
    match toBigUint difficulty with
    | some v => .ok (2 ^ 256 / v)
    | none => .error .ErrorOnConversionBigUint

/-- `hash_to_big`: `BigUint::from_bytes_be(hash.as_bytes())`. -/
def hash_to_big (hash : Hash) : ℕ :=
  hash.bytes.foldl (fun acc b => acc * 256 + b) 0

/-- `check_difficulty`: `Ok(hash_to_big(hash) <= difficulty_to_big(difficulty)?)`. -/
def check_difficulty (hash : Hash) (difficulty : ℕ) : Except DifficultyError Bool :=
  match difficulty_to_big difficulty with
  | .error e => .error e
  | .ok big_diff => .ok (decide (hash_to_big hash ≤ big_diff))

/-- Spec §4.1, *modelled from the spec's words* for the refinement claim:
`meets_target(digest, target)` interprets the digest as a big-endian
unsigned integer and returns whether it is `<= target`. -/
def meets_target (digest : Hash) (target : ℕ) : Bool :=
  decide (hash_to_big digest ≤ target)

/-- Wrapping `u128` subtraction `a - b` (Rust release semantics for the
unguarded `new_timestamp - parent_timestamp`); for `a, b < 2^128`. -/
def wrapSub128 (a b : ℕ) : ℕ :=
  (2 ^ 128 + a - b) % 2 ^ 128

/-- The cast `previous_difficulty as i64` of a `u64` value. -/
def u64ToI64 (n : ℕ) : ℤ :=
  if n % 2 ^ 64 < 2 ^ 63 then (n % 2 ^ 64 : ℕ) else (n % 2 ^ 64 : ℕ) - 2 ^ 64

/-- Reduce an integer into the `i64` range (Rust release wrap-around for
`i64` multiplication overflow). -/
def wrapI64 (z : ℤ) : ℤ :=
  (z + 2 ^ 63) % 2 ^ 64 - 2 ^ 63

/-- The cast `... as u64` of an `i64` value (two's-complement wrap). -/
def i64ToU64 (z : ℤ) : ℕ :=
  (z % 2 ^ 64).toNat

/-- The clamped solve time of `calculate_difficulty`:
`new_timestamp - parent_timestamp` (wrapping `u128` subtraction), then
clamped to at most `BLOCK_TIME_MILLIS * 2`. -/
def clampedSolveTime (T parent_timestamp new_timestamp : ℕ) : ℕ :=
  let solve_time := wrapSub128 new_timestamp parent_timestamp
  if solve_time > T * 2 then T * 2 else solve_time

/-- `calculate_difficulty` (a.k.a. `next_difficulty`).  `T` is
`BLOCK_TIME_MILLIS`, `MIN` is `MINIMUM_DIFFICULTY`, and `ep` abstracts the
floating-point `easypart` as a function of the clamped solve time.  The
body mirrors the source: clamp the solve time, compute
`((previous_difficulty as i64 * easypart) / 10000) as u64` with wrapping
`i64` arithmetic and Rust's truncating division, and floor the result at
`MIN`. -/
def calculate_difficulty (ep : ℕ → ℤ) (T MIN : ℕ)
    (parent_timestamp new_timestamp previous_difficulty : ℕ) : ℕ :=
  let solve_time := clampedSolveTime T parent_timestamp new_timestamp
  let easypart : ℤ := ep solve_time
  let diff : ℕ := i64ToU64 ((wrapI64 (u64ToI64 previous_difficulty * easypart)).tdiv 10000)
  if diff < MIN then MIN else diff

/-- C1: for every difficulty `d > 0`, `difficulty_to_big d` returns
`floor(2^256 / d)`; for `d = 0` it fails with `DifficultyCannotBeZero`. -/
theorem difficulty_to_big_spec (d : ℕ) (hd : 0 < d) :
    difficulty_to_big d = .ok (2 ^ 256 / d) ∧
    difficulty_to_big 0 = .error .DifficultyCannotBeZero := by
  constructor
  · simp [difficulty_to_big, toBigUint, Nat.pos_iff_ne_zero.mp hd]
  · simp [difficulty_to_big]

/-- C1 witness: evaluated at difficulty 3. -/
theorem difficulty_to_big_spec_witness :
    difficulty_to_big 3 = .ok (2 ^ 256 / 3) ∧
    difficulty_to_big 0 = .error .DifficultyCannotBeZero :=
  difficulty_to_big_spec 3 (by decide)

/-- C2: for every digest `h` and difficulty `d > 0`, `check_difficulty h d`
returns `Ok b` where `b` is true iff the big-endian value of `h` is at most
`floor(2^256 / d)` — i.e. it equals `meets_target h (difficulty_to_target d)`;
for `d = 0` it propagates `DifficultyCannotBeZero`. -/
theorem check_difficulty_spec (h : Hash) (d : ℕ) (hd : 0 < d) :
    check_difficulty h d = .ok (meets_target h (2 ^ 256 / d)) ∧
    (meets_target h (2 ^ 256 / d) = decide (hash_to_big h ≤ 2 ^ 256 / d)) ∧
    check_difficulty h 0 = .error .DifficultyCannotBeZero := by
  refine ⟨?_, rfl, ?_⟩
  · simp [check_difficulty, difficulty_to_big, toBigUint, Nat.pos_iff_ne_zero.mp hd,
      meets_target]
  · simp [check_difficulty, difficulty_to_big]

/-- C2 witness: evaluated at the all-0xff digest and difficulty 4. -/
theorem check_difficulty_spec_witness :
    check_difficulty ⟨List.replicate 32 255⟩ 4 =
      .ok (meets_target ⟨List.replicate 32 255⟩ (2 ^ 256 / 4)) ∧
    (meets_target ⟨List.replicate 32 255⟩ (2 ^ 256 / 4) =
      decide (hash_to_big ⟨List.replicate 32 255⟩ ≤ 2 ^ 256 / 4)) ∧
    check_difficulty ⟨List.replicate 32 255⟩ 0 = .error .DifficultyCannotBeZero :=
  check_difficulty_spec ⟨List.replicate 32 255⟩ 4 (by decide)

/-- Wrapping `u128` subtraction recovers the true difference when no
underflow occurs. -/
theorem wrapSub128_of_le (p n : ℕ) (hpn : p ≤ n) (hn : n < 2 ^ 128) :
    wrapSub128 n p = n - p := by
  unfold wrapSub128
  have e : 2 ^ 128 + n - p = 2 ^ 128 + (n - p) := by omega
  rw [e, Nat.add_mod_left, Nat.mod_eq_of_lt (by omega)]

/-- Wrapping `u128` subtraction of a shifted timestamp. -/
theorem wrapSub128_add (p s : ℕ) (hs : s < 2 ^ 128) :
    wrapSub128 (p + s) p = s := by
  unfold wrapSub128
  have e : 2 ^ 128 + (p + s) - p = 2 ^ 128 + s := by omega
  rw [e, Nat.add_mod_left, Nat.mod_eq_of_lt hs]

/-- C4: any solve time above twice the target block time is clamped to
exactly twice it, so a solve of `10 * T` and a solve of `2 * T` produce
the same next difficulty — for every abstract easypart function `ep`,
minimum `MIN`, parent timestamp and previous difficulty. -/
theorem calculate_difficulty_clamp (ep : ℕ → ℤ) (T MIN parent prev : ℕ)
    (hT : T < 2 ^ 64) :
    calculate_difficulty ep T MIN parent (parent + 10 * T) prev =
    calculate_difficulty ep T MIN parent (parent + 2 * T) prev := by
  have h10 : 10 * T < 2 ^ 128 := by
    have h1 : 10 * T < 10 * 2 ^ 64 := by omega
    have h2 : 10 * 2 ^ 64 < 2 ^ 128 := by norm_num
    omega
  have key : clampedSolveTime T parent (parent + 10 * T) =
      clampedSolveTime T parent (parent + 2 * T) := by
    unfold clampedSolveTime
    rw [wrapSub128_add parent (10 * T) h10, wrapSub128_add parent (2 * T) (by omega)]
    dsimp only
    split_ifs <;> omega
  simp only [calculate_difficulty, key]

/-- C4 witness: evaluated at `T = 15000`, parent timestamp 7,
previous difficulty 100000, constant easypart 10000, `MIN = 1`. -/
theorem calculate_difficulty_clamp_witness :
    calculate_difficulty (fun _ => 10000) 15000 1 7 (7 + 10 * 15000) 100000 =
    calculate_difficulty (fun _ => 10000) 15000 1 7 (7 + 2 * 15000) 100000 :=
  calculate_difficulty_clamp (fun _ => 10000) 15000 1 7 100000 (by norm_num)

/-- C5: under the precondition `parent ≤ new`, the `u128` subtraction at
the start of `calculate_difficulty` never underflows — the solve time is
the true difference and the whole computation only depends on it (shift
invariance); without the precondition the unguarded unsigned subtraction
underflows, wrapping to `2^128 - (parent - new)`, which is strictly larger
than the true (truncated) difference. -/
theorem calculate_difficulty_solve_time_underflow (parent n : ℕ)
    (hp : parent < 2 ^ 128) (hn : n < 2 ^ 128) :
    (parent ≤ n →
      wrapSub128 n parent = n - parent ∧
      ∀ (ep : ℕ → ℤ) (T MIN prev : ℕ),
        calculate_difficulty ep T MIN parent n prev =
        calculate_difficulty ep T MIN 0 (n - parent) prev) ∧
    (n < parent →
      wrapSub128 n parent = 2 ^ 128 - (parent - n) ∧
      n - parent < wrapSub128 n parent) := by
  constructor
  · intro hle
    have h1 : wrapSub128 n parent = n - parent := wrapSub128_of_le parent n hle hn
    refine ⟨h1, ?_⟩
    intro ep T MIN prev
    have h2 : wrapSub128 (n - parent) 0 = n - parent := by
      unfold wrapSub128
      omega
    have key : clampedSolveTime T parent n = clampedSolveTime T 0 (n - parent) := by
      unfold clampedSolveTime
      rw [h1, h2]
    simp only [calculate_difficulty, key]
  · intro hlt
    have hval : wrapSub128 n parent = 2 ^ 128 - (parent - n) := by
      unfold wrapSub128
      omega
    exact ⟨hval, by omega⟩

/-- C5 witness: evaluated at parent timestamp 100 with a later timestamp
150 (no underflow, shift invariance checked at `T = 15000`, `MIN = 1`,
previous difficulty 5000) and at an earlier timestamp 40 (underflow). -/
theorem calculate_difficulty_solve_time_underflow_witness :
    (wrapSub128 150 100 = 150 - 100 ∧
      calculate_difficulty (fun _ => 10000) 15000 1 100 150 5000 =
      calculate_difficulty (fun _ => 10000) 15000 1 0 (150 - 100) 5000) ∧
    (wrapSub128 40 100 = 2 ^ 128 - (100 - 40) ∧ 40 - 100 < wrapSub128 40 100) := by
  have h1 := (calculate_difficulty_solve_time_underflow 100 150 (by norm_num)
    (by norm_num)).1 (by norm_num)
  have h2 := (calculate_difficulty_solve_time_underflow 100 40 (by norm_num)
    (by norm_num)).2 (by norm_num)
  exact ⟨⟨h1.1, h1.2 (fun _ => 10000) 15000 1 5000⟩, h2⟩

/-- The `u64 → i64` cast is the identity below `2^63`. -/
theorem u64ToI64_small (n : ℕ) (h : n < 2 ^ 63) : u64ToI64 n = n := by
  unfold u64ToI64
  rw [Nat.mod_eq_of_lt (by omega), if_pos h]

/-- `i64` wrap-around is the identity inside the `i64` range. -/
theorem wrapI64_small (z : ℤ) (h1 : -2 ^ 63 ≤ z) (h2 : z < 2 ^ 63) :
    wrapI64 z = z := by
  unfold wrapI64
  omega

/-- The `i64 → u64` cast is `toNat` on non-negative in-range values. -/
theorem i64ToU64_small (z : ℤ) (h1 : 0 ≤ z) (h2 : z < 2 ^ 64) :
    i64ToU64 z = z.toNat := by
  unfold i64ToU64
  omega

/-- The `((prev as i64 * easypart) / 10000) as u64` core is monotone in the
easypart when nothing overflows. -/
theorem diffCore_mono (prev : ℕ) (e1 e2 : ℤ) (hprev : prev < 2 ^ 63)
    (h02 : 0 ≤ e2) (h21 : e2 ≤ e1) (h1 : (prev : ℤ) * e1 < 2 ^ 63) :
    i64ToU64 ((wrapI64 (u64ToI64 prev * e2)).tdiv 10000) ≤
    i64ToU64 ((wrapI64 (u64ToI64 prev * e1)).tdiv 10000) := by
  rw [u64ToI64_small prev hprev]
  have hprevZ : (0 : ℤ) ≤ (prev : ℤ) := Int.natCast_nonneg prev
  have hnn2 : 0 ≤ (prev : ℤ) * e2 := mul_nonneg hprevZ h02
  have h01 : 0 ≤ e1 := le_trans h02 h21
  have hnn1 : 0 ≤ (prev : ℤ) * e1 := mul_nonneg hprevZ h01
  have hle : (prev : ℤ) * e2 ≤ (prev : ℤ) * e1 :=
    mul_le_mul_of_nonneg_left h21 hprevZ
  have hp2 : (prev : ℤ) * e2 < 2 ^ 63 := lt_of_le_of_lt hle h1
  rw [wrapI64_small _ (by omega) h1, wrapI64_small _ (by omega) hp2]
  rw [Int.tdiv_eq_ediv hnn1 (by norm_num), Int.tdiv_eq_ediv hnn2 (by norm_num)]
  have hdivle : (prev : ℤ) * e2 / 10000 ≤ (prev : ℤ) * e1 / 10000 :=
    Int.ediv_le_ediv (by norm_num) hle
  have hb1 : (prev : ℤ) * e1 / 10000 < 2 ^ 64 :=
    lt_of_le_of_lt (Int.ediv_le_self _ hnn1) (by omega)
  have hb2 : (prev : ℤ) * e2 / 10000 < 2 ^ 64 :=
    lt_of_le_of_lt (Int.ediv_le_self _ hnn2) (by omega)
  rw [i64ToU64_small _ (Int.ediv_nonneg hnn2 (by norm_num)) hb2,
    i64ToU64_small _ (Int.ediv_nonneg hnn1 (by norm_num)) hb1]
  exact Int.toNat_le_toNat hdivle

/-- C3 counterexample: the claim "for every fixed previous difficulty the
next difficulty is monotonically non-increasing in the solve time" is
false as stated: for `previous_difficulty = 2^64 - 10^9` the cast
`previous_difficulty as i64` is negative, and the wrapped result *grows*
as the easypart shrinks — refuted for every antitone easypart in the
range `[8824, 11331]` that moves at all (here: 11331 before one block
time, 8824 after). -/
theorem calculate_difficulty_monotone_cex :
    ¬ (∀ (ep : ℕ → ℤ) (T MIN parent n1 n2 prev : ℕ),
        Antitone ep → (∀ s, 8824 ≤ ep s ∧ ep s ≤ 11331) →
        0 < T → T < 2 ^ 64 → 0 < MIN →
        parent ≤ n1 → n1 ≤ n2 → n2 < 2 ^ 128 → prev < 2 ^ 64 →
        calculate_difficulty ep T MIN parent n2 prev ≤
          calculate_difficulty ep T MIN parent n1 prev ∧
        MIN ≤ calculate_difficulty ep T MIN parent n1 prev) := by
  intro hclaim
  have hanti : Antitone (fun s : ℕ => if s < 15000 then (11331 : ℤ) else 8824) := by
    intro a b hab
    dsimp only
    split_ifs <;> omega
  have hrange : ∀ s : ℕ, 8824 ≤ (if s < 15000 then (11331 : ℤ) else 8824) ∧
      (if s < 15000 then (11331 : ℤ) else 8824) ≤ 11331 := by
    intro s
    split_ifs <;> omega
  have h := (hclaim (fun s => if s < 15000 then 11331 else 8824) 15000 1 0 0 30000
      (2 ^ 64 - 10 ^ 9) hanti hrange (by norm_num) (by norm_num) (by norm_num)
      (by norm_num) (by norm_num) (by norm_num) (by norm_num)).1
  revert h
  decide

/-- C3 amended: the next difficulty is monotonically non-increasing in the
solve time for every antitone, non-negative easypart *provided* the
product `previous_difficulty * easypart` stays below `2^63` (no `i64`
overflow, in particular `previous_difficulty < 2^63`); and — without any
side condition — the result is always at least `MINIMUM_DIFFICULTY`. -/
theorem calculate_difficulty_antitone_min (ep : ℕ → ℤ) (T MIN parent n1 n2 prev : ℕ)
    (hep : Antitone ep) (hep0 : ∀ s, 0 ≤ ep s)
    (hprev : prev < 2 ^ 63)
    (hov : (prev : ℤ) * ep 0 < 2 ^ 63)
    (hpn : parent ≤ n1) (h12 : n1 ≤ n2) (hn2 : n2 < 2 ^ 128) :
    calculate_difficulty ep T MIN parent n2 prev ≤
      calculate_difficulty ep T MIN parent n1 prev ∧
    ∀ (p n d : ℕ), MIN ≤ calculate_difficulty ep T MIN p n d := by
  constructor
  · have hs12 : clampedSolveTime T parent n1 ≤ clampedSolveTime T parent n2 := by
      unfold clampedSolveTime
      rw [wrapSub128_of_le parent n1 hpn (lt_of_le_of_lt h12 hn2),
        wrapSub128_of_le parent n2 (le_trans hpn h12) hn2]
      dsimp only
      split_ifs <;> omega
    have he21 : ep (clampedSolveTime T parent n2) ≤ ep (clampedSolveTime T parent n1) :=
      hep hs12
    have he1 : ep (clampedSolveTime T parent n1) ≤ ep 0 := hep (Nat.zero_le _)
    have hp1 : (prev : ℤ) * ep (clampedSolveTime T parent n1) < 2 ^ 63 :=
      lt_of_le_of_lt (mul_le_mul_of_nonneg_left he1 (Int.natCast_nonneg prev)) hov
    have hcore := diffCore_mono prev (ep (clampedSolveTime T parent n1))
      (ep (clampedSolveTime T parent n2)) hprev (hep0 _) he21 hp1
    unfold calculate_difficulty
    dsimp only
    split_ifs <;> omega
  · intro p n d
    unfold calculate_difficulty
    dsimp only
    split_ifs <;> omega

/-- C3 amended witness: constant easypart 10000, `T = 15000`, `MIN = 5`,
parent timestamp 0, solve times 10 and 20, previous difficulty 100. -/
theorem calculate_difficulty_antitone_min_witness :
    calculate_difficulty (fun _ => 10000) 15000 5 0 20 100 ≤
      calculate_difficulty (fun _ => 10000) 15000 5 0 10 100 ∧
    5 ≤ calculate_difficulty (fun _ => 10000) 15000 5 0 10 100 := by
  have h := calculate_difficulty_antitone_min (fun _ => 10000) 15000 5 0 10 20 100
    antitone_const (fun _ => by norm_num) (by norm_num) (by norm_num)
    (by norm_num) (by norm_num) (by norm_num)
  exact ⟨h.1, h.2 0 10 100⟩

/-- C10: `calculate_difficulty` performs `previous_difficulty as i64 *
easypart` in signed 64-bit arithmetic.  When the product stays below
`2^63` (with the easypart in its actual range `[8824, 11331]`) the result
is exactly `max MIN (prev * easypart / 10000)`; and for
`previous_difficulty = 2^63` (with easypart 10000) the cast overflows
`i64` and the result deviates from that formula — the wrapped product is
0, so the protocol minimum is returned instead of `2^63`. -/
theorem calculate_difficulty_i64_overflow :
    (∀ (ep : ℕ → ℤ) (T MIN parent n prev : ℕ),
      (∀ s, 8824 ≤ ep s ∧ ep s ≤ 11331) →
      (∀ s, (prev : ℤ) * ep s < 2 ^ 63) →
      calculate_difficulty ep T MIN parent n prev =
        max MIN (prev * (ep (clampedSolveTime T parent n)).toNat / 10000)) ∧
    calculate_difficulty (fun _ => 10000) 15000 1 0 15000 (2 ^ 63) ≠
      max 1 (2 ^ 63 * (10000 : ℤ).toNat / 10000) := by
  constructor
  · intro ep T MIN parent n prev hrange hov
    have h0 : 0 ≤ ep (clampedSolveTime T parent n) := by
      have := (hrange (clampedSolveTime T parent n)).1
      omega
    have hprev : prev < 2 ^ 63 := by
      have h1 := (hrange (clampedSolveTime T parent n)).1
      have h2 := hov (clampedSolveTime T parent n)
      have h3 : (prev : ℤ) ≤ (prev : ℤ) * ep (clampedSolveTime T parent n) := by
        nlinarith [Int.natCast_nonneg prev]
      have h4 : (prev : ℤ) < 2 ^ 63 := by omega
      exact_mod_cast h4
    have hnn : 0 ≤ (prev : ℤ) * ep (clampedSolveTime T parent n) :=
      mul_nonneg (Int.natCast_nonneg prev) h0
    unfold calculate_difficulty
    dsimp only
    rw [u64ToI64_small prev hprev,
      wrapI64_small _ (by omega) (hov (clampedSolveTime T parent n)),
      Int.tdiv_eq_ediv hnn (by norm_num),
      i64ToU64_small _ (Int.ediv_nonneg hnn (by norm_num))
        (lt_of_le_of_lt (Int.ediv_le_self _ hnn) (by
          have := hov (clampedSolveTime T parent n)
          omega))]
    have hePt : (prev : ℤ) * ep (clampedSolveTime T parent n) =
        ((prev * (ep (clampedSolveTime T parent n)).toNat : ℕ) : ℤ) := by
      rw [Nat.cast_mul, Int.toNat_of_nonneg h0]
    rw [hePt]
    have h10000 : ((10000 : ℕ) : ℤ) = (10000 : ℤ) := by norm_num
    rw [← h10000, ← Int.natCast_div, Int.toNat_natCast]
    split_ifs <;> omega
  · decide

/-- C10 witness: in-range instance — constant easypart 10000, previous
difficulty 100, solve time exactly one block time. -/
theorem calculate_difficulty_i64_overflow_witness :
    calculate_difficulty (fun _ => 10000) 15000 1 0 15000 100 =
      max 1 (100 * (10000 : ℤ).toNat / 10000) :=
  calculate_difficulty_i64_overflow.1 (fun _ => 10000) 15000 1 0 15000 100
    (fun _ => ⟨by norm_num, by norm_num⟩) (fun _ => by norm_num)

/-- The block template fields the miner reads or mutates
(`src/xelis_miner/src/main.rs`; the rest of the binary template is owned
by an external collaborator and does not affect the embedded logic):
`get_height()`, `timestamp`, `nonce` (a `u64`) and the `extra_nonce`
byte region. -/
structure Block where
  height : ℕ
  timestamp : ℕ
  nonce : ℕ
  extra_nonce : List ℕ
deriving DecidableEq

/-- `ThreadNotification`: broadcast from the communication task to every
mining thread. -/
inductive ThreadNotification where
  | NewJob (block : Block) (difficulty : ℕ)
  | Exit
deriving DecidableEq

/-- `SocketMessage`: inbound daemon messages.  `NewJob` carries the result
of `Block::from_hex(job.template)` (`none` models a decode failure) and
the job difficulty. -/
inductive SocketMessage where
  | NewJob (template : Option Block) (difficulty : ℕ)
  | BlockAccepted
  | BlockRejected

/-- The WebSocket message variants `handle_websocket_message` matches on;
`Text` carries the `serde_json` parse result of the payload. -/
inductive WsMessage where
  | Text (parsed : Except String SocketMessage)
  | Close (reason : Option String)
  | Other

/-- The process-wide telemetry the message handler mutates:
`BLOCKS_FOUND`, `BLOCKS_REJECTED`, `CURRENT_HEIGHT` (atomics; `usize` and
`u64` both wrap at `2^64` on the 64-bit targets the miner runs on). -/
structure MinerCounters where
  blocks_found : ℕ
  blocks_rejected : ℕ
  current_height : ℕ
deriving DecidableEq

/-- `handle_websocket_message`: returns `Ok true` to end the connection
loop, `Ok false` to continue; alongside the updated counters and the list
of notifications it sent on the job broadcast channel. -/
def handle_websocket_message (message : Except String WsMessage)
    (s : MinerCounters) :
    Except String (Bool × MinerCounters × List ThreadNotification) :=
  match message with
  | .error e => .error e
  | .ok (.Text (.error e)) => .error e
  | .ok (.Text (.ok (.NewJob none _))) =>
      .error "Error while decoding new job received from daemon"
  | .ok (.Text (.ok (.NewJob (some block) difficulty))) =>
      .ok (false, { s with current_height := block.height },
        [ThreadNotification.NewJob block difficulty])
  | .ok (.Text (.ok .BlockAccepted)) =>
      .ok (false, { s with blocks_found := (s.blocks_found + 1) % 2 ^ 64 }, [])
  | .ok (.Text (.ok .BlockRejected)) =>
      .ok (false, { s with blocks_rejected := (s.blocks_rejected + 1) % 2 ^ 64 }, [])
  | .ok (.Close _) => .ok (true, s, [])
  | .ok .Other => .ok (true, s, [])

/-- The thread-count selection in `main`: `num_threads` is the `u8` CLI
option, `threads_count` the detected hardware parallelism
(`num_cpus::get()`).  `if threads < 1 { threads = threads_count as u8 }` —
the cast truncates modulo 256. -/
def effective_threads (num_threads threads_count : ℕ) : ℕ :=
  if num_threads < 1 then threads_count % 256 else num_threads

/-- `block.extra_nonce[EXTRA_NONCE_SIZE - 1] = id`, done once per received
job; `sz` is `EXTRA_NONCE_SIZE` (defined in `xelis_common::block`, outside
the sources at hand, hence a parameter). -/
def set_extra_nonce (sz : ℕ) (b : Block) (id : ℕ) : Block :=
  { b with extra_nonce := b.extra_nonce.set (sz - 1) id }

/-- One search-loop mutation: `block.nonce += 1` (wrapping `u64`) and
`block.timestamp = get_current_timestamp()`. -/
def next_attempt (b : Block) (ts : ℕ) : Block :=
  { b with nonce := (b.nonce + 1) % 2 ^ 64, timestamp := ts }

/-- C6 (code bug evidence): with `num_threads = 0` the thread count is the
detected parallelism truncated modulo 256, not `min(n, 255)`: 256 CPUs
yield 0 mining threads and 300 CPUs yield 44, where the claimed cap gives
255.  Below 256 CPUs the two agree. -/
theorem effective_threads_auto_truncates :
    effective_threads 0 256 = 0 ∧
    effective_threads 0 300 = 44 ∧
    effective_threads 0 255 = 255 ∧
    effective_threads 0 256 ≠ min 256 255 := by
  decide

/-- C8: on a `BlockAccepted` (resp. `BlockRejected`) message the handler
increments the accepted (resp. rejected) counter by exactly one, leaves
the other counter and the current-height telemetry unchanged, sends no
notification on the job broadcast channel, and returns `Ok false` — the
connection loop continues. -/
theorem handle_websocket_message_ack (s : MinerCounters)
    (hf : s.blocks_found + 1 < 2 ^ 64) (hr : s.blocks_rejected + 1 < 2 ^ 64) :
    handle_websocket_message (.ok (.Text (.ok .BlockAccepted))) s =
      .ok (false, { s with blocks_found := s.blocks_found + 1 }, []) ∧
    handle_websocket_message (.ok (.Text (.ok .BlockRejected))) s =
      .ok (false, { s with blocks_rejected := s.blocks_rejected + 1 }, []) := by
  constructor
  · simp only [handle_websocket_message]
    rw [Nat.mod_eq_of_lt hf]
  · simp only [handle_websocket_message]
    rw [Nat.mod_eq_of_lt hr]

/-- C8 witness: evaluated at counters `(5, 7, 42)`. -/
theorem handle_websocket_message_ack_witness :
    handle_websocket_message (.ok (.Text (.ok .BlockAccepted))) ⟨5, 7, 42⟩ =
      .ok (false, ⟨6, 7, 42⟩, []) ∧
    handle_websocket_message (.ok (.Text (.ok .BlockRejected))) ⟨5, 7, 42⟩ =
      .ok (false, ⟨5, 8, 42⟩, []) :=
  handle_websocket_message_ack ⟨5, 7, 42⟩ (by norm_num) (by norm_num)

/-- Searching never touches the extra-nonce region: any number of
`next_attempt` mutations preserves it. -/
theorem foldl_next_attempt_extra_nonce (tss : List ℕ) :
    ∀ b : Block, (tss.foldl next_attempt b).extra_nonce = b.extra_nonce := by
  induction tss with
  | nil => intro b; rfl
  | cons t ts ih =>
    intro b
    rw [List.foldl_cons, ih]
    rfl

/-- C7: two workers handed the same job who stamp distinct ids `i ≠ j`
into the last extra-nonce byte hold working copies that differ at that
byte, and the difference persists through every later search mutation
(nonce increment + timestamp refresh), so no nonce/extra-nonce
combination is ever searched by both. -/
theorem workers_disjoint_search (sz : ℕ) (b : Block) (i j : ℕ)
    (tss1 tss2 : List ℕ) (hij : i ≠ j) (hsz : 0 < sz)
    (hlen : b.extra_nonce.length = sz) :
    (tss1.foldl next_attempt (set_extra_nonce sz b i)).extra_nonce[sz - 1]? =
      some i ∧
    (tss2.foldl next_attempt (set_extra_nonce sz b j)).extra_nonce[sz - 1]? =
      some j ∧
    (tss1.foldl next_attempt (set_extra_nonce sz b i)).extra_nonce ≠
      (tss2.foldl next_attempt (set_extra_nonce sz b j)).extra_nonce := by
  have hi : (tss1.foldl next_attempt (set_extra_nonce sz b i)).extra_nonce[sz - 1]? =
      some i := by
    rw [foldl_next_attempt_extra_nonce]
    exact List.getElem?_set_self (by omega)
  have hj : (tss2.foldl next_attempt (set_extra_nonce sz b j)).extra_nonce[sz - 1]? =
      some j := by
    rw [foldl_next_attempt_extra_nonce]
    exact List.getElem?_set_self (by omega)
  refine ⟨hi, hj, ?_⟩
  intro heq
  rw [heq, hj] at hi
  exact hij (Option.some.inj hi).symm

/-- C7 witness: a two-byte extra nonce, worker ids 0 and 1, one worker
0 mutations in, the other 1 mutation in. -/
theorem workers_disjoint_search_witness :
    (([] : List ℕ).foldl next_attempt
        (set_extra_nonce 2 ⟨1, 2, 3, [9, 9]⟩ 0)).extra_nonce[2 - 1]? = some 0 ∧
    (([5] : List ℕ).foldl next_attempt
        (set_extra_nonce 2 ⟨1, 2, 3, [9, 9]⟩ 1)).extra_nonce[2 - 1]? = some 1 ∧
    (([] : List ℕ).foldl next_attempt
        (set_extra_nonce 2 ⟨1, 2, 3, [9, 9]⟩ 0)).extra_nonce ≠
      (([5] : List ℕ).foldl next_attempt
        (set_extra_nonce 2 ⟨1, 2, 3, [9, 9]⟩ 1)).extra_nonce :=
  workers_disjoint_search 2 ⟨1, 2, 3, [9, 9]⟩ 0 1 [] [5] (by decide) (by decide)
    (by decide)

/-- The control position of a mining thread inside `start_thread`'s loops:
at the top of the `'main` loop, inside the solving `while` loop (holding
its private block copy and the job difficulty), or stopped after `break
'main`. -/
inductive WorkerMode where
  | top
  | searching (block : Block) (difficulty : ℕ)
  | exited
deriving DecidableEq

/-- A mining thread's state: control position, the pending notifications
in its broadcast receiver (FIFO — `try_recv` pops the head, `is_empty`
tests emptiness), and the number of hash attempts performed (the thread's
contribution to `HASHRATE_COUNTER`). -/
structure WorkerState where
  mode : WorkerMode
  queue : List ThreadNotification
  attempts : ℕ
deriving DecidableEq

/-- One iteration of a mining thread's loop (`start_thread`):
`hashOk b d` abstracts `check_difficulty(&block.hash(), d) = Ok(true)`
(the `Err` case is `d = 0`, cf. `difficulty_to_big`); `connected` is the
`WEBSOCKET_CONNECTED` flag; `sz`/`id` are `EXTRA_NONCE_SIZE` and the
thread id; `ts` the timestamp for this iteration.
At the top: `try_recv` — `Exit` breaks, a new job is stamped with the id,
hashed once (one attempt), checked (err → `continue`, met → sent and back
to the top, else enter the solving loop); an empty queue stays at the
top (busy `continue` or the disconnected sleep).
Solving: a pending notification or a dropped connection abandons the
search with no further attempt; otherwise increment nonce, refresh
timestamp, hash (one attempt) and re-check. -/
def worker_step (hashOk : Block → ℕ → Bool) (connected : Bool) (sz id : ℕ)
    (s : WorkerState) (ts : ℕ) : WorkerState :=
  match s.mode with
  | .exited => s
  | .top =>
    match s.queue with
    | [] => s
    | .Exit :: rest => { mode := .exited, queue := rest, attempts := s.attempts }
    | .NewJob job d :: rest =>
      let b := set_extra_nonce sz job id
      if d = 0 then { mode := .top, queue := rest, attempts := s.attempts + 1 }
      else if hashOk b d then { mode := .top, queue := rest, attempts := s.attempts + 1 }
      else { mode := .searching b d, queue := rest, attempts := s.attempts + 1 }
  | .searching b d =>
    if s.queue ≠ [] ∨ connected = false then { s with mode := .top }
    else
      let b2 := next_attempt b ts
      if d = 0 then { mode := .top, queue := s.queue, attempts := s.attempts + 1 }
      else if hashOk b2 d then { mode := .top, queue := s.queue, attempts := s.attempts + 1 }
      else { mode := .searching b2 d, queue := s.queue, attempts := s.attempts + 1 }

/-- A mining thread run over a list of per-iteration timestamps. -/
def worker_run (hashOk : Block → ℕ → Bool) (connected : Bool) (sz id : ℕ)
    (s : WorkerState) (tss : List ℕ) : WorkerState :=
  tss.foldl (worker_step hashOk connected sz id) s

/-- Extra loop iterations a control position may need before the next
notification is consumed (the solving loop first returns to the top). -/
def modeCost : WorkerMode → ℕ
  | .searching _ _ => 1
  | _ => 0

/-- `exited` is absorbing: a stopped thread never changes state (in
particular, never hashes again). -/
theorem worker_run_exited (hashOk : Block → ℕ → Bool) (connected : Bool)
    (sz id : ℕ) (tss : List ℕ) :
    ∀ s : WorkerState, s.mode = .exited →
      worker_run hashOk connected sz id s tss = s := by
  induction tss with
  | nil => intro s _; rfl
  | cons t ts ih =>
    intro s hs
    have hstep : worker_step hashOk connected sz id s t = s := by
      unfold worker_step
      rw [hs]
    unfold worker_run
    rw [List.foldl_cons, hstep]
    exact ih s hs

/-- Once an `Exit` notification is pending, the thread reaches `exited`
within `2 * (queue length) + (1 if solving)` iterations: every iteration
at the top with a non-empty queue consumes one notification, every
solving iteration with a non-empty queue returns to the top without
hashing, and `Exit` at the head stops the thread at once. -/
theorem worker_exit_bounded (hashOk : Block → ℕ → Bool) (connected : Bool)
    (sz id : ℕ) :
    ∀ (tss : List ℕ) (s : WorkerState), ThreadNotification.Exit ∈ s.queue →
      2 * s.queue.length + modeCost s.mode ≤ tss.length →
      (worker_run hashOk connected sz id s tss).mode = .exited := by
  intro tss
  induction tss with
  | nil =>
    intro s hmem hlen
    exfalso
    have : s.queue ≠ [] := List.ne_nil_of_mem hmem
    have : 0 < s.queue.length := List.length_pos.mpr this
    simp only [List.length_nil] at hlen
    omega
  | cons t ts ih =>
    intro s hmem hlen
    have hne : s.queue ≠ [] := List.ne_nil_of_mem hmem
    unfold worker_run
    rw [List.foldl_cons]
    rcases hm : s.mode with _ | ⟨b, d⟩ | _
    · -- at the top: the head notification is consumed
      rcases hq : s.queue with _ | ⟨msg, rest⟩
      · exact absurd hq hne
      rcases msg with ⟨job, dj⟩ | _
      · -- a new job: Exit is still in the tail
        have hmem' : ThreadNotification.Exit ∈ rest := by
          rw [hq] at hmem
          rcases List.mem_cons.mp hmem with h | h
          · exact absurd h.symm (by simp)
          · exact h
        have hstep : worker_step hashOk connected sz id s t =
            (if dj = 0 then
              { mode := .top, queue := rest, attempts := s.attempts + 1 }
            else if hashOk (set_extra_nonce sz job id) dj then
              { mode := .top, queue := rest, attempts := s.attempts + 1 }
            else { mode := .searching (set_extra_nonce sz job id) dj,
                   queue := rest, attempts := s.attempts + 1 }) := by
          unfold worker_step
          rw [hm, hq]
        rw [hstep]
        have hlen' : s.queue.length = rest.length + 1 := by
          rw [hq]; rfl
        split_ifs with h0 hok
        · exact ih _ hmem' (by
            simp only [modeCost, hm] at hlen ⊢
            simp only [List.length_cons] at hlen
            omega)
        · exact ih _ hmem' (by
            simp only [modeCost, hm] at hlen ⊢
            simp only [List.length_cons] at hlen
            omega)
        · exact ih _ hmem' (by
            simp only [modeCost, hm] at hlen ⊢
            simp only [List.length_cons] at hlen
            omega)
      · -- Exit at the head: stop now, and stay stopped
        have hstep : worker_step hashOk connected sz id s t =
            { mode := .exited, queue := rest, attempts := s.attempts } := by
          unfold worker_step
          rw [hm, hq]
        rw [hstep]
        have := worker_run_exited hashOk connected sz id ts
          { mode := .exited, queue := rest, attempts := s.attempts } rfl
        unfold worker_run at this
        rw [this]
    · -- solving: the pending notification aborts the search
      have hstep : worker_step hashOk connected sz id s t = { s with mode := .top } := by
        unfold worker_step
        rw [hm]
        dsimp only
        rw [if_pos (Or.inl hne)]
      rw [hstep]
      exact ih _ hmem (by
        simp only [modeCost, hm] at hlen ⊢
        simp only [List.length_cons] at hlen
        omega)
    · -- already exited
      have hstep : worker_step hashOk connected sz id s t = s := by
        unfold worker_step
        rw [hm]
      rw [hstep]
      have := worker_run_exited hashOk connected sz id ts s hm
      unfold worker_run at this
      rw [this, hm]

/-- C9: once an `Exit` notification is pending in a worker's receiving
channel, the worker observes it within a bounded number of loop
iterations (at most `2 * queue length + 1`: the solving loop checks for
pending notifications before every next attempt, and the `Exit` branch
breaks out of the worker loop immediately), and after observing it the
state is frozen — in particular no further hash attempts are performed. -/
theorem worker_exit_spec (hashOk : Block → ℕ → Bool) (connected : Bool)
    (sz id : ℕ) (s : WorkerState) (tss : List ℕ)
    (hmem : ThreadNotification.Exit ∈ s.queue)
    (hlen : 2 * s.queue.length + 1 ≤ tss.length) :
    (worker_run hashOk connected sz id s tss).mode = .exited ∧
    ∀ (s2 : WorkerState) (tss2 : List ℕ), s2.mode = .exited →
      worker_run hashOk connected sz id s2 tss2 = s2 ∧
      (worker_run hashOk connected sz id s2 tss2).attempts = s2.attempts := by
  constructor
  · apply worker_exit_bounded hashOk connected sz id tss s hmem
    have : modeCost s.mode ≤ 1 := by
      cases s.mode <;> simp [modeCost]
    omega
  · intro s2 tss2 h2
    have habs := worker_run_exited hashOk connected sz id tss2 s2 h2
    exact ⟨habs, by rw [habs]⟩

/-- C9 witness: a worker at the top of its loop with a pending job
followed by `Exit`, run for 5 iterations (never-solving hash oracle);
and a stopped worker whose state is frozen. -/
theorem worker_exit_spec_witness :
    (worker_run (fun _ _ => false) true 32 0
      ⟨.top, [.NewJob ⟨0, 0, 0, [0]⟩ 1, .Exit], 0⟩ [1, 2, 3, 4, 5]).mode =
      .exited ∧
    worker_run (fun _ _ => false) true 32 0 ⟨.exited, [], 3⟩ [7, 8] =
      ⟨.exited, [], 3⟩ := by
  have h := worker_exit_spec (fun _ _ => false) true 32 0
    ⟨.top, [.NewJob ⟨0, 0, 0, [0]⟩ 1, .Exit], 0⟩ [1, 2, 3, 4, 5]
    (by decide) (by decide)
  exact ⟨h.1, (h.2 ⟨.exited, [], 3⟩ [7, 8] rfl).1⟩
